import Mathlib

/-!
Shallow embedding of the queue implementation in `queue.c` (lab0-c).

The C code implements a queue on a circular doubly linked list with a
sentinel head.  We model the abstract state of a ring as the Lean list of
its elements in traversal order (head→next direction).  A possibly-NULL
queue handle is modelled as an `Option` of that list.  An element
(`element_t`) owns a string payload; strings are modelled as lists of
byte values (`List Nat`), the bytes strictly before the terminating NUL.
Since the C code distinguishes nodes by address (two nodes may hold equal
strings), the embedded `element_t` carries an `id` field standing for the
node's address; the comparator `cmp` reads only the `value` field, exactly
as the C `cmp` does.
-/

namespace LabQueue

/-- An element: `id` models the node's address (allocation identity),
`value` models the owned NUL-terminated string as the list of bytes before
the NUL. -/
structure element_t where
  id : Nat
  value : List Nat
deriving DecidableEq

/-- Byte-wise C `strcmp`, sign-normalised to -1/0/1 (only the sign of the
C return value is specified). -/
def strcmp : List Nat → List Nat → Int
  | [], [] => 0
  | [], _ :: _ => -1
  | _ :: _, [] => 1
  | a :: as, b :: bs => if a < b then -1 else if b < a then 1 else strcmp as bs

/-- The comparator `cmp` of queue.c: `strcmp` on the two payloads. -/
def cmp (e1 e2 : element_t) : Int := strcmp e1.value e2.value

/-- C `strlen` on the modelled buffer: index of the first NUL byte. -/
def strlen : List Nat → Nat
  | [] => 0
  | c :: rest => if c = 0 then 0 else strlen rest + 1

/-- `create_element` of queue.c: copies the first `strlen s` bytes of `s`
into a fresh buffer (the `strncpy` of `strlen(s)+1` bytes), then performs
the store `s[length - 1] = '\0'`, i.e. `s[strlen s] := 0`.  Returns the
new element (with a fresh node address `newId`) and the final contents of
the caller's buffer `s`.  Allocation is assumed to succeed (the claims do
not concern out-of-memory paths). -/
def create_element (newId : Nat) (s : List Nat) : element_t × List Nat :=
  (⟨newId, s.take (strlen s)⟩, s.set (strlen s) 0)

/-- `q_insert_head` of queue.c: NULL queue fails; otherwise the new
element is linked right after the sentinel (front of the list).  Returns
the success flag, the new queue state, and the final contents of `s`. -/
def q_insert_head (q : Option (List element_t)) (newId : Nat) (s : List Nat) :
    Bool × Option (List element_t) × List Nat :=
  match q with
  | none => (false, none, s)
  | some l => (true, some ((create_element newId s).1 :: l), (create_element newId s).2)

/-- `q_insert_tail` of queue.c: NULL queue fails; otherwise the new
element is linked right before the sentinel (back of the list). -/
def q_insert_tail (q : Option (List element_t)) (newId : Nat) (s : List Nat) :
    Bool × Option (List element_t) × List Nat :=
  match q with
  | none => (false, none, s)
  | some l => (true, some (l ++ [(create_element newId s).1]), (create_element newId s).2)

/-- `2^64`, the modulus of `size_t` arithmetic on the 64-bit target. -/
def SIZE_T_MOD : Nat := 18446744073709551616

/-- The `sp` write path shared by `q_remove_head`/`q_remove_tail`:
`strncpy(sp, value, bufsize)` writes exactly `bufsize` bytes (the copied
prefix padded with NULs), then the unconditional terminator store
`sp[bufsize - 1] = '\0'`, whose index is computed in `size_t` arithmetic.
Every store is bounds-guarded against the buffer's length: an
out-of-bounds store yields `none` (the error branch). -/
def spWrite (buf src : List Nat) (bufsize : Nat) : Option (List Nat) :=
  if bufsize ≤ buf.length then
    let buf2 := (src.take bufsize ++ List.replicate (bufsize - src.length) 0) ++
      buf.drop bufsize
    let idx := (bufsize + (SIZE_T_MOD - 1)) % SIZE_T_MOD
    if idx < buf2.length then some (buf2.set idx 0) else none
  else none

/-- Result of a remove operation: the removed element (NULL when the
queue was NULL or empty), the queue after the call, the contents of the
caller's `sp` buffer after the call (when `sp` was provided), and whether
an out-of-bounds store was attempted. -/
structure RemoveResult where
  removed : Option element_t
  queue : Option (List element_t)
  spOut : Option (List Nat)
  fault : Bool
deriving DecidableEq

/-- `q_remove_head` of queue.c: NULL or empty queue returns NULL before
touching `sp`; otherwise the first element is copied out via the `sp`
path and unlinked. -/
def q_remove_head (q : Option (List element_t)) (sp : Option (List Nat))
    (bufsize : Nat) : RemoveResult :=
  match q with
  | none => ⟨none, none, sp, false⟩
  | some [] => ⟨none, some [], sp, false⟩
  | some (e :: rest) =>
    match sp with
    | none => ⟨some e, some rest, none, false⟩
    | some buf =>
      match spWrite buf e.value bufsize with
      | some buf2 => ⟨some e, some rest, some buf2, false⟩
      | none => ⟨some e, some rest, some buf, true⟩

/-- `q_remove_tail` of queue.c: like `q_remove_head` but acting on the
last element (`list_last_entry`, `list_del(head->prev)`). -/
def q_remove_tail (q : Option (List element_t)) (sp : Option (List Nat))
    (bufsize : Nat) : RemoveResult :=
  match q with
  | none => ⟨none, none, sp, false⟩
  | some l =>
    match l.getLast? with
    | none => ⟨none, some [], sp, false⟩
    | some e =>
      match sp with
      | none => ⟨some e, some l.dropLast, none, false⟩
      | some buf =>
        match spWrite buf e.value bufsize with
        | some buf2 => ⟨some e, some l.dropLast, some buf2, false⟩
        | none => ⟨some e, some l.dropLast, some buf, true⟩

/-- The slow/fast loop of `q_mid`.  Pointers into the ring are modelled as
the suffix of the element list starting at the pointed-to node (the empty
suffix is the sentinel).  The loop guard `fast != head && fast->next != head`
is `2 ≤ fast.length`; the body advances `fast` by two and `slow` by one. -/
def qMidGo (slow fast : List element_t) : List element_t :=
  if _h : 2 ≤ fast.length then qMidGo slow.tail (fast.drop 2) else slow
termination_by fast.length
decreasing_by simp [List.length_drop]; omega

/-- `q_mid` of queue.c: `slow` starts at the first element, `fast` at the
second; the element the loop converges on (`none` when the queue is
empty, where the C code returns the sentinel). -/
def q_mid (l : List element_t) : Option element_t :=
  (qMidGo l (l.drop 1)).head?

/-- `merge` of queue.c: while both rings are non-empty, move
`a`'s front when `cmp(a_front, b_front) < 0` and `b`'s front otherwise
(so on ties `b`'s front moves); then splice the unexhausted remainder. -/
def merge : List element_t → List element_t → List element_t
  | [], b => b
  | x :: xs, [] => x :: xs
  | x :: xs, y :: ys =>
    if cmp x y < 0 then x :: merge xs (y :: ys) else y :: merge (x :: xs) ys
termination_by a b => a.length + b.length

/-- `q_sort` of queue.c: rings of at most one element are returned as is
(`head->prev == head->next`); otherwise `list_cut_position` moves the
prefix up to and including `q_mid` into `new_head`, both parts are sorted
recursively, and `merge(head, &new_head)` merges them (first argument is
the suffix that stayed in `head`). -/
def q_sort (l : List element_t) : List element_t :=
  if _h : l.length ≤ 1 then l
  else
    merge (q_sort (l.drop (l.length - (qMidGo l (l.drop 1)).length + 1)))
      (q_sort (l.take (l.length - (qMidGo l (l.drop 1)).length + 1)))
termination_by l.length
decreasing_by
  all_goals
    have hq : ∀ slow fast : List element_t, qMidGo slow fast = slow.drop (fast.length / 2) := by
      intro slow fast
      induction slow, fast using qMidGo.induct with
      | case1 slow fast h ih =>
        rw [qMidGo, dif_pos h, ih, ← List.drop_one, List.drop_drop]
        congr 1
        simp only [List.length_drop]
        omega
      | case2 slow fast h =>
        rw [qMidGo, dif_neg h, Nat.div_eq_of_lt (by omega), List.drop_zero]
  all_goals rw [hq]
  all_goals simp only [List.length_drop, List.length_take]
  all_goals omega

/-- `q_reverse` of queue.c: swapping `prev` and `next` of every node,
sentinel included, reverses the traversal order of the ring. -/
def q_reverse (l : List element_t) : List element_t := l.reverse

/-- `q_swap` of queue.c: for each adjacent pair the two nodes exchange
their `value` pointers while keeping their positions in the ring; a
trailing unpaired node is left untouched. -/
def q_swap : List element_t → List element_t
  | x :: y :: rest => ⟨x.id, y.value⟩ :: ⟨y.id, x.value⟩ :: q_swap rest
  | l => l

/-- The traversal loop of `q_delete_dup`: `c` is the current "last kept"
element (`cur` in the C code, `none` initially); a visited element equal
to it (per `cmp`) is deleted, otherwise it becomes the new last kept. -/
def dedupLoop : Option element_t → List element_t → List element_t
  | _, [] => []
  | none, e :: rest => e :: dedupLoop (some e) rest
  | some c, e :: rest =>
    if cmp c e = 0 then dedupLoop (some c) rest else e :: dedupLoop (some e) rest

/-- `q_delete_dup` of queue.c: NULL queue returns false; otherwise the
traversal loop runs and the function returns true. -/
def q_delete_dup (q : Option (List element_t)) : Bool × Option (List element_t) :=
  match q with
  | none => (false, none)
  | some l => (true, some (dedupLoop none l))

/-- Pairing of positions used to state `q_swap`'s effect on payloads: an
even position maps to its successor when that position exists, an odd
position maps to its predecessor, and an unpaired final even position
maps to itself. -/
def pairIdx (i n : Nat) : Nat :=
  if i % 2 = 0 then (if i + 1 < n then i + 1 else i) else i - 1

/-- Pointer-level picture of a ring: node 0 is the sentinel head, nodes
1..n the elements in traversal order; `next` and `prev` are the link
fields. -/
structure RingState where
  n : Nat
  next : Nat → Nat
  prev : Nat → Nat

/-- The ring representing a queue state `l`: the sentinel and the
`l.length` element nodes linked circularly in order. -/
def toRing (l : List element_t) : RingState :=
  ⟨l.length,
   fun i => if i = l.length then 0 else i + 1,
   fun i => if i = 0 then l.length else i - 1⟩

/-- Ring consistency: `node.next.prev == node` and `node.prev.next == node`
for every node of the ring (the sentinel is node 0), and the sentinel's
successor is the sentinel itself exactly when the ring is empty. -/
def RingWF (r : RingState) : Prop :=
  (∀ i, i ≤ r.n → r.prev (r.next i) = i ∧ r.next (r.prev i) = i) ∧
  (r.next 0 = 0 ↔ r.n = 0)

/-! Properties of the comparator. -/

theorem strcmp_self (a : List Nat) : strcmp a a = 0 := by
  induction a with
  | nil => rfl
  | cons x as ih => simp [strcmp, ih]

theorem strcmp_swap (a b : List Nat) : strcmp b a = - strcmp a b := by
  induction a generalizing b with
  | nil => cases b <;> simp [strcmp]
  | cons x as ih =>
    cases b with
    | nil => simp [strcmp]
    | cons y bs =>
      simp only [strcmp]
      split_ifs <;> first | omega | exact ih bs

theorem strcmp_le_trans : ∀ (a b c : List Nat),
    strcmp a b ≤ 0 → strcmp b c ≤ 0 → strcmp a c ≤ 0
  | [], b, c, _, _ => by cases c <;> simp [strcmp]
  | _ :: _, [], _, h1, _ => by simp [strcmp] at h1
  | _ :: _, _ :: _, [], _, h2 => by simp [strcmp] at h2
  | x :: as, y :: bs, z :: cs, h1, h2 => by
    simp only [strcmp] at h1 h2 ⊢
    split_ifs at h1 h2 ⊢ <;> first | omega | exact strcmp_le_trans as bs cs h1 h2

theorem strcmp_lt_trans (a b c : List Nat)
    (h1 : strcmp a b < 0) (h2 : strcmp b c < 0) : strcmp a c < 0 := by
  by_contra h
  have h3 : strcmp c a ≤ 0 := by have := strcmp_swap a c; omega
  have h4 : strcmp c b ≤ 0 := strcmp_le_trans c a b h3 (by omega)
  have := strcmp_swap b c
  omega

instance : IsTrans element_t (fun e1 e2 => cmp e1 e2 ≤ 0) :=
  ⟨fun a b c h1 h2 => strcmp_le_trans a.value b.value c.value h1 h2⟩

instance : IsTrans element_t (fun e1 e2 => cmp e1 e2 < 0) :=
  ⟨fun a b c h1 h2 => strcmp_lt_trans a.value b.value c.value h1 h2⟩

/-! Properties of `merge` and `q_sort`. -/

theorem mem_merge (a b : List element_t) (z : element_t) :
    z ∈ merge a b ↔ z ∈ a ∨ z ∈ b := by
  induction a, b using merge.induct with
  | case1 b => simp [merge]
  | case2 x xs => simp [merge]
  | case3 x xs y ys h ih => simp only [merge, if_pos h]; simp [ih]; tauto
  | case4 x xs y ys h ih => simp only [merge, if_neg h]; simp [ih]; tauto

theorem pairwise_merge (a b : List element_t)
    (ha : List.Pairwise (fun e1 e2 => cmp e1 e2 ≤ 0) a)
    (hb : List.Pairwise (fun e1 e2 => cmp e1 e2 ≤ 0) b) :
    List.Pairwise (fun e1 e2 => cmp e1 e2 ≤ 0) (merge a b) := by
  induction a, b using merge.induct with
  | case1 b => simpa [merge] using hb
  | case2 x xs => simpa [merge] using ha
  | case3 x xs y ys h ih =>
    rw [List.pairwise_cons] at ha
    rw [List.pairwise_cons] at hb
    simp only [merge, if_pos h]
    rw [List.pairwise_cons]
    refine ⟨fun z hz => ?_, ih ha.2 (List.pairwise_cons.mpr hb)⟩
    rcases (mem_merge xs (y :: ys) z).mp hz with hzx | hzy
    · exact ha.1 z hzx
    · rcases List.mem_cons.mp hzy with rfl | hzys
      · omega
      · exact strcmp_le_trans _ _ _ (by simp only [cmp] at h; omega) (hb.1 z hzys)
  | case4 x xs y ys h ih =>
    rw [List.pairwise_cons] at hb
    have hyx : cmp y x ≤ 0 := by
      have := strcmp_swap x.value y.value
      simp only [cmp] at h ⊢
      omega
    simp only [merge, if_neg h]
    rw [List.pairwise_cons]
    refine ⟨fun z hz => ?_, ih ha hb.2⟩
    rcases (mem_merge (x :: xs) ys z).mp hz with hzx | hzy
    · rcases List.mem_cons.mp hzx with rfl | hzxs
      · exact hyx
      · exact strcmp_le_trans _ _ _ hyx ((List.pairwise_cons.mp ha).1 z hzxs)
    · exact hb.1 z hzy

theorem q_sort_pairwise (l : List element_t) :
    List.Pairwise (fun e1 e2 => cmp e1 e2 ≤ 0) (q_sort l) := by
  induction l using q_sort.induct with
  | case1 l h =>
    rw [q_sort.eq_def, dif_pos h]
    rcases l with _ | ⟨x, _ | ⟨y, rest⟩⟩
    · simp
    · simp
    · simp at h
  | case2 l h ih1 ih2 =>
    rw [q_sort.eq_def, dif_neg h]
    exact pairwise_merge _ _ ih1 ih2

theorem cmp_self (a : element_t) : cmp a a = 0 := strcmp_self a.value

theorem cmp_swap (a b : element_t) : cmp b a = - cmp a b := strcmp_swap a.value b.value

theorem cmp_le_trans (a b c : element_t) (h1 : cmp a b ≤ 0) (h2 : cmp b c ≤ 0) :
    cmp a c ≤ 0 := strcmp_le_trans a.value b.value c.value h1 h2

/-! Properties of `q_mid`. -/

theorem qMidGo_eq_drop (slow fast : List element_t) :
    qMidGo slow fast = slow.drop (fast.length / 2) := by
  induction slow, fast using qMidGo.induct with
  | case1 slow fast h ih =>
    rw [qMidGo, dif_pos h, ih, ← List.drop_one, List.drop_drop]
    congr 1
    simp only [List.length_drop]
    omega
  | case2 slow fast h =>
    rw [qMidGo, dif_neg h, Nat.div_eq_of_lt (by omega), List.drop_zero]

theorem head_drop (l : List element_t) (i : Nat) : (l.drop i).head? = l.get? i := by
  induction l generalizing i with
  | nil => simp
  | cons x xs ih =>
    cases i with
    | zero => simp
    | succ j => simp only [List.drop_succ_cons, List.get?_cons_succ]; exact ih j

/-! Properties of `dedupLoop` (the `q_delete_dup` traversal). -/

theorem chain_le_cons_of_eq (c e : element_t) (rest : List element_t)
    (hce : cmp c e = 0)
    (h : List.Chain' (fun e1 e2 => cmp e1 e2 ≤ 0) (c :: e :: rest)) :
    List.Chain' (fun e1 e2 => cmp e1 e2 ≤ 0) (c :: rest) := by
  rcases rest with _ | ⟨r, rs⟩
  · simp
  · obtain ⟨_, h2⟩ := List.chain'_cons.mp h
    obtain ⟨her, h3⟩ := List.chain'_cons.mp h2
    exact List.chain'_cons.mpr ⟨cmp_le_trans c e r (by omega) her, h3⟩

theorem dedup_chain_lt (c : element_t) (l : List element_t)
    (h : List.Chain' (fun e1 e2 => cmp e1 e2 ≤ 0) (c :: l)) :
    List.Chain' (fun e1 e2 => cmp e1 e2 < 0) (c :: dedupLoop (some c) l) := by
  induction l generalizing c with
  | nil => simp [dedupLoop]
  | cons e rest ih =>
    simp only [dedupLoop]
    by_cases hce : cmp c e = 0
    · rw [if_pos hce]
      exact ih c (chain_le_cons_of_eq c e rest hce h)
    · rw [if_neg hce]
      obtain ⟨hle, h2⟩ := List.chain'_cons.mp h
      exact List.chain'_cons.mpr ⟨by omega, ih e h2⟩

theorem dedup_sublist (c : Option element_t) (l : List element_t) :
    List.Sublist (dedupLoop c l) l := by
  induction c, l using dedupLoop.induct with
  | case1 c => simp [dedupLoop]
  | case2 e rest ih => simp only [dedupLoop]; exact ih.cons₂ e
  | case3 c e rest h ih => simp only [dedupLoop, if_pos h]; exact ih.cons e
  | case4 c e rest h ih => simp only [dedupLoop, if_neg h]; exact ih.cons₂ e

theorem dedup_represented (c : element_t) (l : List element_t)
    (h : List.Chain' (fun e1 e2 => cmp e1 e2 ≤ 0) (c :: l)) :
    ∀ e ∈ l, cmp c e = 0 ∨ ∃ f ∈ dedupLoop (some c) l, cmp e f = 0 := by
  induction l generalizing c with
  | nil => intro e he; simp at he
  | cons x rest ih =>
    intro e he
    simp only [dedupLoop]
    by_cases hcx : cmp c x = 0
    · rw [if_pos hcx]
      rcases List.mem_cons.mp he with rfl | herest
      · exact Or.inl hcx
      · exact ih c (chain_le_cons_of_eq c x rest hcx h) e herest
    · rw [if_neg hcx]
      rcases List.mem_cons.mp he with rfl | herest
      · exact Or.inr ⟨e, List.mem_cons_self e _, cmp_self e⟩
      · rcases ih x (List.chain'_cons.mp h).2 e herest with h0 | ⟨f, hf, hef⟩
        · exact Or.inr ⟨x, List.mem_cons_self x _, by have := cmp_swap x e; omega⟩
        · exact Or.inr ⟨f, List.mem_cons_of_mem _ hf, hef⟩

/-! Properties of `q_swap`. -/

theorem pairIdx_shift (i n : Nat) : pairIdx (i + 2) (n + 2) = pairIdx i n + 2 := by
  unfold pairIdx
  split_ifs <;> omega

/-! Properties of `toRing`. -/

theorem ringWF_toRing (l : List element_t) : RingWF (toRing l) := by
  constructor
  · intro i hi
    simp only [toRing] at hi ⊢
    constructor <;> split_ifs <;> first | omega | simp_all
  · show (if (0 : Nat) = l.length then 0 else 0 + 1) = 0 ↔ l.length = 0
    split_ifs with h
    · exact ⟨fun _ => h.symm, fun _ => rfl⟩
    · exact ⟨fun h1 => h1.elim, fun h1 => absurd h1.symm h⟩

/-! Properties of the source-buffer write in `create_element`. -/

theorem set_strlen_nul (s : List Nat) (h : 0 ∈ s) : s.set (strlen s) 0 = s := by
  induction s with
  | nil => simp at h
  | cons c rest ih =>
    by_cases hc : c = 0
    · subst hc; simp [strlen]
    · have h0 : 0 ∈ rest := by
        rcases List.mem_cons.mp h with h1 | h1
        · exact absurd h1.symm hc
        · exact h1
      simp [strlen, hc, ih h0]

/-! Claim theorems. -/

/-- Claim C1: the claim states that `q_mid` on a non-empty ring of n
elements returns the element at 0-based index ⌊n/2⌋, and on
`[a,b,c,d,e,f]` the element holding `d` at index 3.  The code disagrees:
this theorem shows that on that six-element ring `q_mid` returns the
element at index 2 (the one holding `c`, byte 99), and that in general
`q_mid` returns the element at index ⌊(n-1)/2⌋, which differs from
⌊n/2⌋ at every even n.  This contradicts the comment above
`q_delete_mid` in queue.c ("the ⌊n/2⌋th node ... using 0-based
indexing"). -/
theorem q_mid_lower_middle :
    q_mid [⟨0, [97]⟩, ⟨1, [98]⟩, ⟨2, [99]⟩, ⟨3, [100]⟩, ⟨4, [101]⟩, ⟨5, [102]⟩] =
      some ⟨2, [99]⟩ ∧
    ∀ l : List element_t, q_mid l = l.get? ((l.length - 1) / 2) := by
  have hgen : ∀ l : List element_t, q_mid l = l.get? ((l.length - 1) / 2) := by
    intro l
    rw [q_mid, qMidGo_eq_drop, head_drop]
    congr 1
    simp only [List.length_drop]
  exact ⟨by rw [hgen]; rfl, hgen⟩

/-- Claim C2, counterexample: the claim states that an element of `b` is
moved before the current front of `a` only when `b`'s front is strictly
smaller.  With two distinct nodes holding the same string "x" (byte 120),
`b`'s front is not strictly smaller than `a`'s front, yet `merge` places
`b`'s node first. -/
theorem merge_tie_counterexample :
    ¬ cmp (⟨1, [120]⟩ : element_t) ⟨0, [120]⟩ < 0 ∧
    merge [⟨0, [120]⟩] [⟨1, [120]⟩] = [⟨1, [120]⟩, ⟨0, [120]⟩] := by
  constructor
  · decide
  · simp [merge, cmp, strcmp]

/-- Claim C2, amended: each round `merge` moves the strictly smaller
front, but ties favor `b`: `a`'s front moves only when it is strictly
smaller (`cmp < 0`), and `b`'s front moves whenever `cmp(a,b) >= 0`,
ties included — so equal elements of `b` end up before those of `a` and
the merge is not stable in the claimed direction. -/
theorem merge_step (x y : element_t) (xs ys : List element_t) :
    (cmp x y < 0 → merge (x :: xs) (y :: ys) = x :: merge xs (y :: ys)) ∧
    (0 ≤ cmp x y → merge (x :: xs) (y :: ys) = y :: merge (x :: xs) ys) := by
  constructor
  · intro h
    simp only [merge]
    rw [if_pos h]
  · intro h
    simp only [merge]
    rw [if_neg (by omega)]

/-- Witness for `merge_step` at a concrete tie. -/
theorem merge_step_witness :
    (0 : Int) ≤ cmp (⟨0, [120]⟩ : element_t) ⟨1, [120]⟩ ∧
    merge [(⟨0, [120]⟩ : element_t)] [⟨1, [120]⟩] =
      ⟨1, [120]⟩ :: merge [(⟨0, [120]⟩ : element_t)] [] :=
  ⟨by decide, (merge_step ⟨0, [120]⟩ ⟨1, [120]⟩ [] []).2 (by decide)⟩

/-- Claim C3: after `q_sort`, every adjacent pair of elements in
traversal order compares `<= 0` under the string comparator. -/
theorem q_sort_adjacent_le (l : List element_t) :
    List.Chain' (fun e1 e2 => cmp e1 e2 ≤ 0) (q_sort l) :=
  List.chain'_iff_pairwise.mpr (q_sort_pairwise l)

/-- Claim C4: `q_delete_dup` returns false on an absent ring and true on
an empty ring; on a ring sorted ascending it returns true and keeps a
subsequence of the original (one representative per distinct value, in
original relative order): the survivors are pairwise distinct under `cmp`
and every original element has a `cmp`-equal representative among them. -/
theorem q_delete_dup_correct :
    q_delete_dup none = (false, none) ∧
    q_delete_dup (some []) = (true, some []) ∧
    ∀ l, List.Chain' (fun e1 e2 => cmp e1 e2 ≤ 0) l →
      ∃ r, q_delete_dup (some l) = (true, some r) ∧
        List.Sublist r l ∧
        List.Pairwise (fun e1 e2 => cmp e1 e2 ≠ 0) r ∧
        ∀ e ∈ l, ∃ f ∈ r, cmp e f = 0 := by
  refine ⟨rfl, rfl, fun l hl => ⟨dedupLoop none l, rfl, dedup_sublist none l, ?_, ?_⟩⟩
  · have hlt : List.Chain' (fun e1 e2 => cmp e1 e2 < 0) (dedupLoop none l) := by
      rcases l with _ | ⟨x, rest⟩
      · simp [dedupLoop]
      · simp only [dedupLoop]
        exact dedup_chain_lt x rest hl
    exact (List.chain'_iff_pairwise.mp hlt).imp (fun h => by omega)
  · rcases l with _ | ⟨x, rest⟩
    · intro e he
      simp at he
    · intro e he
      simp only [dedupLoop]
      rcases List.mem_cons.mp he with rfl | herest
      · exact ⟨e, List.mem_cons_self e _, cmp_self e⟩
      · rcases dedup_represented x rest hl e herest with h0 | ⟨f, hf, hef⟩
        · exact ⟨x, List.mem_cons_self x _, by have := cmp_swap x e; omega⟩
        · exact ⟨f, List.mem_cons_of_mem _ hf, hef⟩

/-- Witness for `q_delete_dup_correct` on the sorted ring
`["a","a","b"]` (bytes 97/97/98, three distinct nodes). -/
theorem q_delete_dup_witness :
    List.Chain' (fun e1 e2 => cmp e1 e2 ≤ 0)
      [(⟨0, [97]⟩ : element_t), ⟨1, [97]⟩, ⟨2, [98]⟩] ∧
    ∃ r, q_delete_dup (some [(⟨0, [97]⟩ : element_t), ⟨1, [97]⟩, ⟨2, [98]⟩]) =
        (true, some r) ∧
      List.Sublist r [(⟨0, [97]⟩ : element_t), ⟨1, [97]⟩, ⟨2, [98]⟩] ∧
      List.Pairwise (fun e1 e2 => cmp e1 e2 ≠ 0) r ∧
      ∀ e ∈ [(⟨0, [97]⟩ : element_t), ⟨1, [97]⟩, ⟨2, [98]⟩], ∃ f ∈ r, cmp e f = 0 :=
  ⟨by simp [List.chain'_cons, cmp, strcmp],
   q_delete_dup_correct.2.2 [⟨0, [97]⟩, ⟨1, [97]⟩, ⟨2, [98]⟩]
     (by simp [List.chain'_cons, cmp, strcmp])⟩

/-- Claim C5: `q_reverse` is an involution. -/
theorem q_reverse_involution (l : List element_t) : q_reverse (q_reverse l) = l :=
  List.reverse_reverse l

/-- Claim C6: `q_swap` keeps every node in its ring position (the list of
node ids is unchanged) and exchanges the payloads of each adjacent pair;
an unpaired final element keeps its payload (`pairIdx` maps each position
to its pair partner, or to itself when unpaired). -/
theorem q_swap_spec (l : List element_t) :
    (q_swap l).map (fun e => e.id) = l.map (fun e => e.id) ∧
    ∀ i, i < l.length →
      ((q_swap l).get? i).map (fun e => e.value) =
        (l.get? (pairIdx i l.length)).map (fun e => e.value) := by
  induction l using q_swap.induct with
  | case1 x y rest ih =>
    refine ⟨by simp [q_swap, ih.1], ?_⟩
    intro i hi
    match i with
    | 0 =>
      have hp : pairIdx 0 (x :: y :: rest).length = 1 := by
        unfold pairIdx
        rw [if_pos (by omega), if_pos (by simp only [List.length_cons]; omega)]
      rw [hp]
      simp [q_swap]
    | 1 =>
      have hp : pairIdx 1 (x :: y :: rest).length = 0 := by
        unfold pairIdx
        rw [if_neg (by omega)]
      rw [hp]
      simp [q_swap]
    | (j + 2) =>
      have hlen : (x :: y :: rest).length = rest.length + 2 := rfl
      rw [hlen, pairIdx_shift j rest.length]
      simp only [q_swap, List.get?_cons_succ]
      refine ih.2 j ?_
      have hi2 : j + 2 < rest.length + 2 := by rw [← hlen]; exact hi
      omega
  | case2 l hno =>
    rcases l with _ | ⟨x, _ | ⟨y, rest⟩⟩
    · exact ⟨rfl, fun i hi => by simp at hi⟩
    · refine ⟨rfl, fun i hi => ?_⟩
      rcases i with _ | j
      · rfl
      · simp only [List.length_cons, List.length_nil] at hi
        omega
    · exact absurd rfl (hno x y rest)

/-- Witness for `q_swap_spec` on the four-element ring with payloads
"1","2","3","4" (bytes 49..52): position 0 ends up holding the payload
that was at position 1. -/
theorem q_swap_witness :
    0 < ([⟨0, [49]⟩, ⟨1, [50]⟩, ⟨2, [51]⟩, ⟨3, [52]⟩] : List element_t).length ∧
    ((q_swap [⟨0, [49]⟩, ⟨1, [50]⟩, ⟨2, [51]⟩, ⟨3, [52]⟩]).get? 0).map (fun e => e.value) =
      (([⟨0, [49]⟩, ⟨1, [50]⟩, ⟨2, [51]⟩, ⟨3, [52]⟩] : List element_t).get?
        (pairIdx 0 ([⟨0, [49]⟩, ⟨1, [50]⟩, ⟨2, [51]⟩, ⟨3, [52]⟩] : List element_t).length)).map
        (fun e => e.value) :=
  ⟨by decide, (q_swap_spec [⟨0, [49]⟩, ⟨1, [50]⟩, ⟨2, [51]⟩, ⟨3, [52]⟩]).2 0 (by decide)⟩

/-- Claim C7: removing from an absent (NULL) or empty ring returns an
absent element, leaves the queue state untouched, leaves the `sp` buffer
(whatever it was) untouched, and performs no faulting store. -/
theorem q_remove_empty_safe :
    ∀ (sp : Option (List Nat)) (bufsize : Nat),
      q_remove_head none sp bufsize = ⟨none, none, sp, false⟩ ∧
      q_remove_head (some []) sp bufsize = ⟨none, some [], sp, false⟩ ∧
      q_remove_tail none sp bufsize = ⟨none, none, sp, false⟩ ∧
      q_remove_tail (some []) sp bufsize = ⟨none, some [], sp, false⟩ :=
  fun _ _ => ⟨rfl, rfl, rfl, rfl⟩

/-- Claim C8: every queue state (and in particular the result of
`q_reverse`, `merge` and `q_sort`) is represented by a consistent ring:
`node.next.prev == node` and `node.prev.next == node` for every node
including the sentinel head, and `head.next == head` exactly when the
ring is empty. -/
theorem ring_consistency :
    ∀ l a b : List element_t,
      RingWF (toRing l) ∧ RingWF (toRing (q_reverse l)) ∧
      RingWF (toRing (merge a b)) ∧ RingWF (toRing (q_sort l)) :=
  fun l a b =>
    ⟨ringWF_toRing l, ringWF_toRing (q_reverse l), ringWF_toRing (merge a b),
     ringWF_toRing (q_sort l)⟩

/-- Claim C9: with `sp` non-NULL on a non-empty ring, the terminator
store `sp[bufsize - 1] = 0` (index computed in `size_t` arithmetic) stays
inside a buffer of capacity `bufsize` exactly when `bufsize >= 1`; for
`bufsize = 0` the guarded embedding takes the error branch (the index
wraps to 2^64 - 1). -/
theorem sp_terminator_bound (src : List Nat) (bufsize : Nat) (h : bufsize < SIZE_T_MOD) :
    ((spWrite (List.replicate bufsize 0) src bufsize).isSome = true ↔ 1 ≤ bufsize) := by
  simp only [spWrite, List.length_replicate, le_refl, if_true]
  split_ifs with hidx
  · simp only [Option.isSome_some, true_iff]
    simp only [List.length_append, List.length_take, List.length_replicate,
      List.length_drop, SIZE_T_MOD] at hidx
    omega
  · simp only [Option.isSome_none, Bool.false_eq_true, false_iff]
    simp only [List.length_append, List.length_take, List.length_replicate,
      List.length_drop, SIZE_T_MOD] at hidx
    simp only [SIZE_T_MOD] at h
    omega

/-- Witness for `sp_terminator_bound` at `bufsize = 0`: the error branch
is reachable. -/
theorem sp_terminator_witness :
    (0 : Nat) < SIZE_T_MOD ∧
    ((spWrite (List.replicate 0 0) [] 0).isSome = true ↔ 1 ≤ 0) :=
  ⟨by decide, sp_terminator_bound [] 0 (by decide)⟩

/-- Claim C10: for a NUL-terminated source buffer (one that contains a
NUL byte), successful insertion leaves the buffer unchanged — the store
`s[strlen(s)] = 0` performed by `create_element` writes the value the
byte already holds. -/
theorem insert_preserves_source (q : List element_t) (newId : Nat) (s : List Nat)
    (h : 0 ∈ s) :
    (create_element newId s).2 = s ∧
    (q_insert_head (some q) newId s).2.2 = s ∧
    (q_insert_tail (some q) newId s).2.2 = s := by
  have hs : s.set (strlen s) 0 = s := set_strlen_nul s h
  exact ⟨hs, hs, hs⟩

/-- Witness for `insert_preserves_source` on the buffer
`[104, 105, 0, 42]` ("hi" plus a NUL and a trailing byte). -/
theorem insert_preserves_source_witness :
    (0 : Nat) ∈ ([104, 105, 0, 42] : List Nat) ∧
    ((create_element 9 [104, 105, 0, 42]).2 = [104, 105, 0, 42] ∧
     (q_insert_head (some []) 9 [104, 105, 0, 42]).2.2 = [104, 105, 0, 42] ∧
     (q_insert_tail (some []) 9 [104, 105, 0, 42]).2.2 = [104, 105, 0, 42]) :=
  ⟨by decide, insert_preserves_source [] 9 [104, 105, 0, 42] (by decide)⟩

end LabQueue
